import Mathlib

/-!
Shallow embedding of the `convo` dialogue-tree library (src/link.rs, src/node.rs,
src/tree.rs, src/importer.rs, src/exporter.rs).

The YAML layer: the repository parses and emits YAML via the external `yaml_rust`
crate.  We embed the crate's `Yaml` AST directly and model a "source" as the list
of documents that `YamlLoader::load_from_str` would return (respectively that
`YamlEmitter::dump` would print as one document).  The text-level scanner and
emitter are third-party code outside this repository; the spec's round-trip law
is stated at the AST boundary, with parse and emit mutually inverse there.

Rust machine details: `IndexMap` is modelled as an association list with the
`IndexMap::insert` discipline (existing key keeps its position, value replaced;
fresh key appended), which preserves key uniqueness and insertion order.
Error messages built with `format!` interpolation of `Debug` payloads keep their
static prefix only; no claim depends on the interpolated text.
-/

namespace Convo

/-- Link (src/link.rs): a uni-directional path to a node, with descriptor dialogue. -/
structure Link where
  to_key : String
  dialogue : String
deriving DecidableEq, Repr

/-- Link::new. -/
def Link.new (to_key dialogue : String) : Link := ⟨to_key, dialogue⟩

/-- Node (src/node.rs): a unique key, prompting dialogue, and outgoing links. -/
structure Node where
  key : String
  dialogue : String
  links : List Link
deriving DecidableEq, Repr

/-- Node::new: a node with no links. -/
def Node.new (key dialogue : String) : Node := ⟨key, dialogue, []⟩

/-- Tree (src/tree.rs): nodes keyed by their unique key (insertion-ordered map),
plus optional root and current keys. -/
structure Tree where
  nodes : List (String × Node)
  root_key : Option String
  current_key : Option String
deriving DecidableEq, Repr

/-- Tree::new: a tree with no nodes. -/
def Tree.new : Tree := ⟨[], none, none⟩

/-- IndexMap::contains_key on the association-list model. -/
def containsKey (m : List (String × Node)) (k : String) : Bool :=
  m.any (fun p => p.1 == k)

/-- IndexMap::insert: if the key is present its value is replaced in place
(the key keeps its position); otherwise the pair is appended. -/
def indexInsert (m : List (String × Node)) (k : String) (v : Node) :
    List (String × Node) :=
  if containsKey m k then m.map (fun p => if p.1 == k then (k, v) else p)
  else m ++ [(k, v)]

/-- TreeError (src/error.rs). -/
inductive TreeError
  | RootNotSet
  | CurrentNotSet
  | NodeDNE (key : String)
  | Validation (msg : String)
deriving DecidableEq, Repr

/-- ImportError (src/error.rs): IO and scan errors live below the AST boundary
and cannot arise in this embedding; `From<TreeError>` wraps into `Validation`. -/
inductive ImportError
  | Validation (e : TreeError)
  | MultipleDocumentsProvided
deriving DecidableEq, Repr

/-- ExportError (src/error.rs): IO and emitter errors live below the AST
boundary; `From<TreeError>` wraps into the `Tree` variant. -/
inductive ExportError
  | Tree (e : TreeError)
deriving DecidableEq, Repr

/-- Tree::set_root_key (src/tree.rs, lines 155-166).  The Rust method mutates
`&mut self` and returns `Result<(), TreeError>`; we return the post state
together with the optional error, the failing path returning the receiver
unchanged exactly as the early `return Err` does. -/
def Tree.set_root_key (t : Tree) (node_key : String) : Tree × Option TreeError :=
  if !containsKey t.nodes node_key then (t, some (TreeError.NodeDNE node_key))
  else
    let t1 : Tree := { t with root_key := some node_key }
    let t2 : Tree :=
      if t1.current_key.isNone then { t1 with current_key := some node_key } else t1
    (t2, none)

/-- Tree::set_root_key_unchecked (src/tree.rs, lines 187-189). -/
def Tree.set_root_key_unchecked (t : Tree) (node_key : String) : Tree :=
  { t with root_key := some node_key }

/-- Tree::set_current_key (src/tree.rs, lines 243-251). -/
def Tree.set_current_key (t : Tree) (node_key : String) : Tree × Option TreeError :=
  if !containsKey t.nodes node_key then (t, some (TreeError.NodeDNE node_key))
  else ({ t with current_key := some node_key }, none)

/-- Tree::set_current_key_unchecked (src/tree.rs, lines 272-274). -/
def Tree.set_current_key_unchecked (t : Tree) (node_key : String) : Tree :=
  { t with current_key := some node_key }

/-- Tree::rewind (src/tree.rs, lines 296-303). -/
def Tree.rewind (t : Tree) : Tree × Option TreeError :=
  if t.root_key.isNone then (t, some TreeError.RootNotSet)
  else ({ t with current_key := t.root_key }, none)

/-- Tree::reset (src/tree.rs, lines 341-345). -/
def Tree.reset (_t : Tree) : Tree := ⟨[], none, none⟩

/-- The `yaml_rust::Yaml` AST (hashes are insertion-ordered association lists,
as in `LinkedHashMap`). -/
inductive Yaml
  | str (s : String)
  | int (n : Int)
  | boolean (b : Bool)
  | null
  | arr (elems : List Yaml)
  | hash (entries : List (Yaml × Yaml))
  | badValue

/-- Yaml::as_str: only the `String` variant yields a string. -/
def Yaml.as_str : Yaml → Option String
  | .str s => some s
  | _ => none

/-- Yaml::as_hash. -/
def Yaml.as_hash : Yaml → Option (List (Yaml × Yaml))
  | .hash h => some h
  | _ => none

/-- Yaml::as_vec. -/
def Yaml.as_vec : Yaml → Option (List Yaml)
  | .arr a => some a
  | _ => none

/-- LinkedHashMap::get with a `Yaml::String` key (`Yaml::from_str` of a plain
word such as "dialogue" or "links" is the `String` variant): an entry matches
exactly when its key is that string. -/
def hashGetStr (h : List (Yaml × Yaml)) (k : String) : Option Yaml :=
  (h.find? (fun p => match p.1 with | .str s => s == k | _ => false)).map
    (fun p => p.2)

/-- The `Index<&str>` impl for Yaml: `BadValue` when the receiver is not a hash
or the key is absent. -/
def Yaml.index (y : Yaml) (k : String) : Yaml :=
  match y with
  | .hash h => (hashGetStr h k).getD .badValue
  | _ => .badValue

/-- One entry of a link hash (the body of the inner `for` loop of
`yaml_to_links`, src/importer.rs lines 183-192). -/
def linkOfPair (p : Yaml × Yaml) : Except ImportError Link :=
  match p.1.as_str with
  | none => .error (.Validation (.Validation "YAML link name is not a string"))
  | some toKey =>
    match p.2.as_str with
    | none => .error (.Validation (.Validation "YAML link dialogue is not a string"))
    | some dialogue => .ok (Link.new toKey dialogue)

/-- The inner `for` loop of `yaml_to_links`: every entry of one link hash is
pushed onto the accumulating buffer. -/
def linksOfHash (entries : List (Yaml × Yaml)) (acc : List Link) :
    Except ImportError (List Link) :=
  match entries with
  | [] => .ok acc
  | p :: rest =>
    match linkOfPair p with
    | .error e => .error e
    | .ok l => linksOfHash rest (acc ++ [l])

/-- The outer `for` loop of `yaml_to_links`: each element must be a hash, whose
entries are all pushed in order. -/
def linksLoop (links : List Yaml) (acc : List Link) :
    Except ImportError (List Link) :=
  match links with
  | [] => .ok acc
  | y :: rest =>
    match y.as_hash with
    | none => .error (.Validation (.Validation "YAML link is not a hash"))
    | some h =>
      match linksOfHash h acc with
      | .error e => .error e
      | .ok acc2 => linksLoop rest acc2

/-- yaml_to_links (src/importer.rs, lines 166-196). -/
def yaml_to_links (y : Yaml) : Except ImportError (List Link) :=
  match y.as_vec with
  | none => .error (.Validation (.Validation "YAML link data is not an array"))
  | some links =>
    if links.length = 0 then
      .error (.Validation (.Validation "Links array has a length of 0"))
    else linksLoop links []

/-- yaml_to_node (src/importer.rs, lines 132-164): `Node::new(key, dialogue)`
followed by `node.links.extend(links)` when a `links` entry is present. -/
def yaml_to_node (yaml_key yaml_data : Yaml) : Except ImportError Node :=
  match yaml_key.as_str with
  | none => .error (.Validation (.Validation "YAML key is not a string"))
  | some key =>
    match yaml_data.as_hash with
    | none => .error (.Validation (.Validation "YAML data is not a hash"))
    | some data =>
      match hashGetStr data "dialogue" with
      | none =>
        .error (.Validation (.Validation ("YAML does not contain dialogue for " ++ key)))
      | some yd =>
        match yd.as_str with
        | none =>
          .error (.Validation (.Validation ("YAML dialogue is not a string for " ++ key)))
        | some dialogue =>
          match hashGetStr data "links" with
          | none => .ok (Node.mk key dialogue [])
          | some yaml_links =>
            match yaml_to_links yaml_links with
            | .error e => .error e
            | .ok links => .ok (Node.mk key dialogue links)

/-- The node-insertion `for` loop of `yaml_to_tree` (src/importer.rs, lines
113-116): each parsed node is inserted keyed by its own key. -/
def insertNodes (entries : List (Yaml × Yaml)) (acc : List (String × Node)) :
    Except ImportError (List (String × Node)) :=
  match entries with
  | [] => .ok acc
  | (k, v) :: rest =>
    match yaml_to_node k v with
    | .error e => .error e
    | .ok node => insertNodes rest (indexInsert acc node.key node)

/-- yaml_to_tree (src/importer.rs, lines 95-130). -/
def yaml_to_tree (yaml : Yaml) : Except ImportError Tree :=
  match (yaml.index "root").as_str with
  | none =>
    .error (.Validation (.Validation "YAML does not contain top-level string key for `root`"))
  | some root_key =>
    match (yaml.index "nodes").as_hash with
    | none =>
      .error (.Validation (.Validation "YAML does not contain top-level hash for `nodes`"))
    | some node_map =>
      if node_map.length = 0 then
        .error (.Validation (.Validation "Node map has a length of 0"))
      else
        match insertNodes node_map [] with
        | .error e => .error e
        | .ok nodes =>
          if !containsKey nodes root_key then
            .error (.Validation (.NodeDNE root_key))
          else
            .ok (((Tree.mk nodes none none).set_root_key_unchecked root_key).set_current_key_unchecked
              root_key)

/-- source_to_tree (src/importer.rs, lines 69-81), at the AST boundary: the
argument is the document list `YamlLoader::load_from_str` returned; a document
count other than one is rejected. -/
def source_to_tree (docs : List Yaml) : Except ImportError Tree :=
  match docs with
  | [doc] => yaml_to_tree doc
  | _ => .error .MultipleDocumentsProvided

/-- link_to_yaml (src/exporter.rs, lines 136-143): always succeeds in the Rust
source (no error is ever constructed), so it is modelled total. -/
def link_to_yaml (l : Link) : Yaml :=
  .hash [(.str l.to_key, .str l.dialogue)]

/-- node_to_yaml (src/exporter.rs, lines 111-134): `dialogue` always, `links`
only when non-empty; the two constant keys are distinct so the
`LinkedHashMap` inserts build exactly this list.  Total for the same reason as
`link_to_yaml`. -/
def node_to_yaml (n : Node) : Yaml :=
  if n.links.isEmpty then .hash [(.str "dialogue", .str n.dialogue)]
  else
    .hash [(.str "dialogue", .str n.dialogue),
           (.str "links", .arr (n.links.map link_to_yaml))]

/-- tree_to_yaml (src/exporter.rs, lines 83-109).  `Tree::nodes` is an
`IndexMap`, so its keys are pairwise distinct and the node-map
`LinkedHashMap` inserts append in iteration order. -/
def tree_to_yaml (t : Tree) : Except TreeError Yaml :=
  match t.root_key with
  | none => .error TreeError.RootNotSet
  | some root_key =>
    if t.nodes.length = 0 then
      .error (TreeError.Validation "Node map has a length of 0")
    else
      .ok (.hash [(.str "root", .str root_key),
                  (.str "nodes",
                    .hash (t.nodes.map (fun p => (Yaml.str p.1, node_to_yaml p.2))))])

/-- tree_to_source (src/exporter.rs, lines 71-81), at the AST boundary: the
emitter dumps the document, producing a one-document source. -/
def tree_to_source (t : Tree) : Except ExportError (List Yaml) :=
  match tree_to_yaml t with
  | .error e => .error (.Tree e)
  | .ok y => .ok [y]

/-- A traversal mutation from the spec's invariant-preservation property: one
`set_root_key` or `set_current_key` call. -/
inductive SetOp
  | setRoot (k : String)
  | setCurrent (k : String)

/-- The key an operation refers to. -/
def SetOp.key : SetOp → String
  | .setRoot k => k
  | .setCurrent k => k

/-- Apply one traversal mutation. -/
def applySet (t : Tree) (op : SetOp) : Tree × Option TreeError :=
  match op with
  | .setRoot k => t.set_root_key k
  | .setCurrent k => t.set_current_key k

/-- Run a sequence of traversal mutations, each failing call leaving the tree
unchanged (as the Rust early `return Err` does on `&mut self`). -/
def applySeq (t : Tree) (ops : List SetOp) : Tree :=
  ops.foldl (fun u op => (applySet u op).1) t

/-- Invariants I1 and I2: a set root or current key indexes an existing node. -/
def invB (t : Tree) : Bool :=
  (match t.root_key with
   | none => true
   | some k => containsKey t.nodes k) &&
  (match t.current_key with
   | none => true
   | some k => containsKey t.nodes k)

/-- Run a sequence of `set_current_key` calls, each failing call leaving the
tree unchanged. -/
def applyCurrSeq (t : Tree) (ks : List String) : Tree :=
  ks.foldl (fun u k => (u.set_current_key k).1) t

/-- The entry a node-map pair re-imports to: the key names the node, so the
node's own key field is overwritten by the map key. -/
def reNode (p : String × Node) : String × Node :=
  (p.1, Node.mk p.1 p.2.dialogue p.2.links)

/-- A concrete two-node document (the spec's §8 scenario shape). -/
def exDoc : Yaml :=
  .hash [(.str "root", .str "start"),
         (.str "nodes", .hash
           [(.str "start", .hash [(.str "dialogue", .str "Hi"),
              (.str "links", .arr [.hash [(.str "end", .str "Bye")]])]),
            (.str "end", .hash [(.str "dialogue", .str "Later")])])]

/-- The container `exDoc` imports to. -/
def exTree : Tree :=
  ⟨[("start", ⟨"start", "Hi", [⟨"end", "Bye"⟩]⟩), ("end", ⟨"end", "Later", []⟩)],
   some "start", some "start"⟩

/-- A document whose single node carries a two-entry link mapping. -/
def multiLinkDoc : Yaml :=
  .hash [(.str "root", .str "start"),
         (.str "nodes", .hash
           [(.str "start", .hash [(.str "dialogue", .str "Hi"),
              (.str "links", .arr [.hash [(.str "a", .str "x"), (.str "b", .str "y")]])]),
            (.str "a", .hash [(.str "dialogue", .str "A")]),
            (.str "b", .hash [(.str "dialogue", .str "B")])])]

/-- The container `multiLinkDoc` imports to: the two entries flatten into two
links in entry order. -/
def multiLinkTree : Tree :=
  ⟨[("start", ⟨"start", "Hi", [⟨"a", "x"⟩, ⟨"b", "y"⟩]⟩),
    ("a", ⟨"a", "A", []⟩), ("b", ⟨"b", "B", []⟩)],
   some "start", some "start"⟩

/-- A document whose node links to a key that exists nowhere in `nodes`. -/
def danglingDoc : Yaml :=
  .hash [(.str "root", .str "start"),
         (.str "nodes", .hash
           [(.str "start", .hash [(.str "dialogue", .str "Hi"),
              (.str "links", .arr [.hash [(.str "ghost", .str "Go")]])])])]

/-- The container `danglingDoc` imports to, dangling link preserved. -/
def danglingTree : Tree :=
  ⟨[("start", ⟨"start", "Hi", [⟨"ghost", "Go"⟩]⟩)], some "start", some "start"⟩

/-- A tree whose root key indexes no node, as `set_root_key_unchecked` can
produce: one real node, root pointing at a missing key. -/
def brokenRootTree : Tree :=
  (Tree.mk [("a", Node.mk "a" "Hi" [])] none none).set_root_key_unchecked "ghost"

/-- A document whose `root` names a key absent from its `nodes` mapping. -/
def ghostRootDoc : Yaml :=
  .hash [(.str "root", .str "missing"),
         (.str "nodes", .hash
           [(.str "start", .hash [(.str "dialogue", .str "Hi")])])]

theorem containsKey_eq_true {m : List (String × Node)} {k : String} :
    containsKey m k = true ↔ k ∈ m.map Prod.fst := by
  simp [containsKey, List.any_eq_true, List.mem_map]

theorem set_current_key_fst_root (t : Tree) (k : String) :
    ((t.set_current_key k).1).root_key = t.root_key := by
  unfold Tree.set_current_key
  split <;> rfl

theorem applyCurrSeq_root (t : Tree) (ks : List String) :
    (applyCurrSeq t ks).root_key = t.root_key := by
  induction ks generalizing t with
  | nil => rfl
  | cons k rest ih =>
    calc (applyCurrSeq t (k :: rest)).root_key
        = (applyCurrSeq ((t.set_current_key k).1) rest).root_key := rfl
      _ = ((t.set_current_key k).1).root_key := ih _
      _ = t.root_key := set_current_key_fst_root t k

theorem invB_iff {t : Tree} : invB t = true ↔
    (∀ k, t.root_key = some k → containsKey t.nodes k = true) ∧
    (∀ k, t.current_key = some k → containsKey t.nodes k = true) := by
  unfold invB
  cases hr : t.root_key <;> cases hc : t.current_key <;> simp

theorem applySet_spec (t : Tree) (op : SetOp) (h : invB t = true) :
    ((applySet t op).2 ≠ none → (applySet t op).1 = t) ∧
    ((applySet t op).2 = none →
      containsKey (applySet t op).1.nodes op.key = true) ∧
    invB (applySet t op).1 = true := by
  obtain ⟨h1, h2⟩ := invB_iff.mp h
  cases op with
  | setRoot k =>
    by_cases hc : containsKey t.nodes k = true
    · refine ⟨?_, ?_, ?_⟩
      · intro hne
        simp [applySet, Tree.set_root_key, hc] at hne
      · intro _
        cases hcur : t.current_key <;>
          simp [applySet, Tree.set_root_key, SetOp.key, hc, hcur]
      · rw [invB_iff]
        cases hcur : t.current_key with
        | none =>
          simp only [applySet, Tree.set_root_key, hc, Bool.not_true,
            Bool.false_eq_true, if_false, hcur, Option.isNone_none, if_true]
          exact ⟨fun k2 hk2 => by simp at hk2; exact hk2 ▸ hc,
                 fun k2 hk2 => by simp at hk2; exact hk2 ▸ hc⟩
        | some c =>
          simp only [applySet, Tree.set_root_key, hc, Bool.not_true,
            Bool.false_eq_true, if_false, hcur, Option.isNone_some, if_false]
          refine ⟨fun k2 hk2 => by simp at hk2; exact hk2 ▸ hc,
                 fun k2 hk2 => ?_⟩
          simp at hk2
          exact h2 k2 (by rw [hcur, hk2])
    · have hc2 : containsKey t.nodes k = false := by
        simpa using hc
      refine ⟨?_, ?_, ?_⟩
      · intro _
        simp [applySet, Tree.set_root_key, hc2]
      · intro heq
        simp [applySet, Tree.set_root_key, hc2] at heq
      · simpa [applySet, Tree.set_root_key, hc2] using h
  | setCurrent k =>
    by_cases hc : containsKey t.nodes k = true
    · refine ⟨?_, ?_, ?_⟩
      · intro hne
        simp [applySet, Tree.set_current_key, hc] at hne
      · intro _
        simp [applySet, Tree.set_current_key, SetOp.key, hc]
      · rw [invB_iff]
        simp only [applySet, Tree.set_current_key, hc, Bool.not_true,
          Bool.false_eq_true, if_false]
        exact ⟨fun k2 hk2 => h1 k2 hk2,
               fun k2 hk2 => by simp at hk2; exact hk2 ▸ hc⟩
    · have hc2 : containsKey t.nodes k = false := by
        simpa using hc
      refine ⟨?_, ?_, ?_⟩
      · intro _
        simp [applySet, Tree.set_current_key, hc2]
      · intro heq
        simp [applySet, Tree.set_current_key, hc2] at heq
      · simpa [applySet, Tree.set_current_key, hc2] using h

theorem invB_applySeq (t : Tree) (h : invB t = true) (ops : List SetOp) :
    invB (applySeq t ops) = true := by
  induction ops generalizing t with
  | nil => exact h
  | cons op rest ih =>
    exact ih (applySet t op).1 (applySet_spec t op h).2.2

/-- C2: on any tree satisfying I1 and I2, every `set_root_key` or
`set_current_key` call either fails leaving the tree exactly as it was, or
succeeds with the referenced key present in `nodes`; consequently I1 and I2
hold after every sequence of such calls. -/
theorem set_ops_preserve_invariants (t : Tree) (h : invB t = true) :
    (∀ op : SetOp,
      ((applySet t op).2 ≠ none → (applySet t op).1 = t) ∧
      ((applySet t op).2 = none →
        containsKey (applySet t op).1.nodes op.key = true) ∧
      invB (applySet t op).1 = true) ∧
    (∀ ops : List SetOp, invB (applySeq t ops) = true) :=
  ⟨fun op => applySet_spec t op h, fun ops => invB_applySeq t h ops⟩

/-- Witness for C2 at a concrete two-node tree and a concrete call. -/
theorem set_ops_preserve_invariants_witness :
    invB exTree = true ∧
    invB (applySeq exTree [SetOp.setCurrent "end", SetOp.setRoot "end"]) = true := by
  have h : invB exTree = true := by decide
  exact ⟨h, (set_ops_preserve_invariants exTree h).2
    [SetOp.setCurrent "end", SetOp.setRoot "end"]⟩

/-- C4: a successful `set_root_key` on a tree with no current key sets both
the root and the current key; on a tree whose current key is already set it
changes the root key only. -/
theorem set_root_key_first_root (t : Tree) (k c : String)
    (h : containsKey t.nodes k = true) :
    (t.current_key = none →
      t.set_root_key k =
        ({ t with root_key := some k, current_key := some k }, none)) ∧
    (t.current_key = some c →
      t.set_root_key k = ({ t with root_key := some k }, none)) := by
  constructor
  · intro hc
    simp [Tree.set_root_key, h, hc]
  · intro hc
    simp [Tree.set_root_key, h, hc]

/-- Witness for C4: both branches at concrete trees. -/
theorem set_root_key_first_root_witness :
    (Tree.mk [("a", Node.mk "a" "x" [])] none none).set_root_key "a" =
      (Tree.mk [("a", Node.mk "a" "x" [])] (some "a") (some "a"), none) ∧
    exTree.set_root_key "end" =
      ({ exTree with root_key := some "end" }, none) := by
  constructor
  · exact (set_root_key_first_root
      (Tree.mk [("a", Node.mk "a" "x" [])] none none) "a" "z" (by decide)).1 rfl
  · exact (set_root_key_first_root exTree "end" "start" (by decide)).2 rfl

/-- C5: `rewind` fails exactly when the root key is unset, leaving the tree
unchanged, and otherwise copies the root key into the current key; after a
successful `set_root_key r` and any sequence of `set_current_key` calls,
`rewind` succeeds and positions the tree at `r`. -/
theorem rewind_spec (t : Tree) (r : String) (ks : List String) :
    (t.root_key = none → t.rewind = (t, some TreeError.RootNotSet)) ∧
    (t.root_key = some r → t.rewind = ({ t with current_key := some r }, none)) ∧
    (∀ t1, t.set_root_key r = (t1, none) →
      ((applyCurrSeq t1 ks).rewind).2 = none ∧
      ((applyCurrSeq t1 ks).rewind).1.current_key = some r) := by
  refine ⟨?_, ?_, ?_⟩
  · intro h
    simp [Tree.rewind, h]
  · intro h
    simp [Tree.rewind, h]
  · intro t1 h1
    have hroot : t1.root_key = some r := by
      by_cases hc : containsKey t.nodes r = true
      · simp only [Tree.set_root_key, hc, Bool.not_true, Bool.false_eq_true,
          if_false, Prod.mk.injEq] at h1
        rw [← h1.1]
        split <;> rfl
      · have hc2 : containsKey t.nodes r = false := by simpa using hc
        simp [Tree.set_root_key, hc2] at h1
    have hr2 : (applyCurrSeq t1 ks).root_key = some r := by
      rw [applyCurrSeq_root]
      exact hroot
    constructor <;> simp [Tree.rewind, hr2]

/-- Witness for C5 at a concrete tree and call sequence. -/
theorem rewind_spec_witness :
    ((applyCurrSeq exTree ["end"]).rewind).2 = none ∧
    ((applyCurrSeq exTree ["end"]).rewind).1.current_key = some "start" :=
  (rewind_spec exTree "start" ["end"]).2.2 exTree rfl

/-- C6: `tree_to_source` fails with the distinct `RootNotSet` error when the
root key is unset, with a validation error when the node map is empty, and
succeeds whenever the root key is set and the node map is non-empty. -/
theorem tree_to_source_preconditions (t : Tree) (r : String) :
    (t.root_key = none →
      tree_to_source t = .error (.Tree TreeError.RootNotSet)) ∧
    (t.root_key = some r → t.nodes = [] →
      tree_to_source t =
        .error (.Tree (TreeError.Validation "Node map has a length of 0"))) ∧
    (t.root_key = some r → t.nodes ≠ [] →
      ∃ out, tree_to_source t = .ok out) := by
  refine ⟨?_, ?_, ?_⟩
  · intro h
    simp [tree_to_source, tree_to_yaml, h]
  · intro h hn
    simp [tree_to_source, tree_to_yaml, h, hn]
  · intro h hn
    have hlen : ¬t.nodes.length = 0 := by
      simpa [List.length_eq_zero] using hn
    simp [tree_to_source, tree_to_yaml, h, hlen]

/-- Witness for C6: all three branches at concrete trees. -/
theorem tree_to_source_preconditions_witness :
    tree_to_source Tree.new = .error (.Tree TreeError.RootNotSet) ∧
    tree_to_source (Tree.mk [] (some "a") none) =
      .error (.Tree (TreeError.Validation "Node map has a length of 0")) ∧
    ∃ out, tree_to_source exTree = .ok out := by
  refine ⟨(tree_to_source_preconditions Tree.new "a").1 rfl,
    (tree_to_source_preconditions (Tree.mk [] (some "a") none) "a").2.1 rfl rfl,
    (tree_to_source_preconditions exTree "start").2.2 rfl (by decide)⟩

/-- C8: an input parsing to zero documents or to two or more documents is
rejected; only a single-document source reaches the tree conversion. -/
theorem source_to_tree_document_count (docs : List Yaml) (h : docs.length ≠ 1) :
    source_to_tree docs = .error ImportError.MultipleDocumentsProvided := by
  cases docs with
  | nil => rfl
  | cons a rest =>
    cases rest with
    | nil => simp at h
    | cons b rest2 => rfl

/-- Witness for C8 at the empty document list. -/
theorem source_to_tree_document_count_witness :
    source_to_tree [] = .error ImportError.MultipleDocumentsProvided :=
  source_to_tree_document_count [] (by simp)

theorem linksLoop_map (ls : List Link) (acc : List Link) :
    linksLoop (ls.map link_to_yaml) acc = .ok (acc ++ ls) := by
  induction ls generalizing acc with
  | nil => simp [linksLoop]
  | cons l rest ih =>
    have h1 : linksLoop (link_to_yaml l :: rest.map link_to_yaml) acc
        = linksLoop (rest.map link_to_yaml) (acc ++ [l]) := rfl
    rw [List.map_cons, h1, ih]
    simp

theorem yaml_to_node_node_to_yaml (s : String) (n : Node) :
    yaml_to_node (.str s) (node_to_yaml n) = .ok (Node.mk s n.dialogue n.links) := by
  cases hl : n.links with
  | nil =>
    simp only [node_to_yaml, hl, List.isEmpty_nil, if_true]
    rfl
  | cons l rest =>
    simp only [node_to_yaml, hl, List.isEmpty_cons, Bool.false_eq_true, if_false]
    have hcore : yaml_to_node (.str s)
        (.hash [(.str "dialogue", .str n.dialogue),
                (.str "links", .arr ((l :: rest).map link_to_yaml))])
        = (match yaml_to_links (.arr ((l :: rest).map link_to_yaml)) with
           | .error e => .error e
           | .ok links => .ok (Node.mk s n.dialogue links)) := rfl
    rw [hcore]
    have hlinks : yaml_to_links (.arr ((l :: rest).map link_to_yaml))
        = .ok (l :: rest) := by
      simp only [yaml_to_links, Yaml.as_vec, List.length_map, List.length_cons]
      rw [if_neg (by simp)]
      simpa using linksLoop_map (l :: rest) []
    rw [hlinks]

theorem containsKey_eq_false {m : List (String × Node)} {k : String}
    (h : k ∉ m.map Prod.fst) : containsKey m k = false := by
  rw [Bool.eq_false_iff]
  intro hc
  exact h (containsKey_eq_true.mp hc)

theorem insertNodes_map (m : List (String × Node)) (acc : List (String × Node))
    (hnd : ((acc ++ m).map Prod.fst).Nodup) :
    insertNodes (m.map (fun p => (Yaml.str p.1, node_to_yaml p.2))) acc
      = .ok (acc ++ m.map reNode) := by
  induction m generalizing acc with
  | nil => simp [insertNodes]
  | cons p rest ih =>
    rw [List.map_cons]
    have hstep : insertNodes
        ((Yaml.str p.1, node_to_yaml p.2) :: rest.map (fun q => (Yaml.str q.1, node_to_yaml q.2)))
        acc
        = (match yaml_to_node (.str p.1) (node_to_yaml p.2) with
           | .error e => .error e
           | .ok node =>
             insertNodes (rest.map (fun q => (Yaml.str q.1, node_to_yaml q.2)))
               (indexInsert acc node.key node)) := rfl
    rw [hstep, yaml_to_node_node_to_yaml]
    have hni : p.1 ∉ acc.map Prod.fst := by
      rw [List.map_append, List.nodup_append] at hnd
      intro hin
      exact hnd.2.2 hin (by simp)
    have hkc : containsKey acc p.1 = false := containsKey_eq_false hni
    show insertNodes _ (indexInsert acc p.1 (Node.mk p.1 p.2.dialogue p.2.links)) = _
    rw [indexInsert, hkc]
    simp only [Bool.false_eq_true, if_false]
    have hnd2 : (((acc ++ [(p.1, Node.mk p.1 p.2.dialogue p.2.links)]) ++ rest).map
        Prod.fst).Nodup := by
      have : ((acc ++ [(p.1, Node.mk p.1 p.2.dialogue p.2.links)]) ++ rest).map Prod.fst
          = (acc ++ p :: rest).map Prod.fst := by
        simp
      rw [this]
      exact hnd
    rw [ih _ hnd2]
    simp [reNode]

theorem indexInsert_keeps (m : List (String × Node)) (v : Node)
    (h1 : (m.map Prod.fst).Nodup) (h2 : ∀ p ∈ m, p.1 = p.2.key) :
    ((indexInsert m v.key v).map Prod.fst).Nodup ∧
    (∀ p ∈ indexInsert m v.key v, p.1 = p.2.key) := by
  by_cases hc : containsKey m v.key = true
  · rw [indexInsert, if_pos hc]
    have hmf : ((m.map fun p => if p.1 == v.key then (v.key, v) else p).map Prod.fst)
        = m.map Prod.fst := by
      rw [List.map_map]
      apply List.map_congr_left
      intro p _
      by_cases h : p.1 = v.key <;> simp [h]
    constructor
    · rw [hmf]
      exact h1
    · intro p hp
      rw [List.mem_map] at hp
      obtain ⟨q, hq, rfl⟩ := hp
      by_cases h : q.1 = v.key <;> simp [h]
      exact h2 q hq
  · have hc2 : v.key ∉ m.map Prod.fst := fun hin => hc (containsKey_eq_true.mpr hin)
    rw [indexInsert, if_neg hc]
    constructor
    · rw [List.map_append]
      simp only [List.map_cons, List.map_nil]
      rw [List.nodup_append]
      refine ⟨h1, List.nodup_singleton _, ?_⟩
      intro a ha hb
      simp at hb
      exact hc2 (hb ▸ ha)
    · intro p hp
      rcases List.mem_append.mp hp with hin | hin
      · exact h2 p hin
      · simp at hin
        rw [hin]

theorem insertNodes_keeps (entries : List (Yaml × Yaml))
    (acc res : List (String × Node))
    (h1 : (acc.map Prod.fst).Nodup) (h2 : ∀ p ∈ acc, p.1 = p.2.key)
    (h : insertNodes entries acc = .ok res) :
    (res.map Prod.fst).Nodup ∧ (∀ p ∈ res, p.1 = p.2.key) := by
  induction entries generalizing acc with
  | nil =>
    simp only [insertNodes] at h
    cases h
    exact ⟨h1, h2⟩
  | cons e rest ih =>
    obtain ⟨k, v⟩ := e
    simp only [insertNodes] at h
    cases hn : yaml_to_node k v with
    | error err => rw [hn] at h; cases h
    | ok node =>
      rw [hn] at h
      obtain ⟨g1, g2⟩ := indexInsert_keeps acc node h1 h2
      exact ih _ g1 g2 h

theorem map_reNode_id (m : List (String × Node))
    (h : ∀ p ∈ m, p.1 = p.2.key) : m.map reNode = m := by
  induction m with
  | nil => rfl
  | cons p rest ih =>
    have hp : p.1 = p.2.key := h p (by simp)
    have hre : reNode p = p := by
      obtain ⟨k, n⟩ := p
      obtain ⟨nk, nd, nl⟩ := n
      simp [reNode] at hp ⊢
      exact hp
    rw [List.map_cons, hre, ih (fun q hq => h q (by simp [hq]))]

theorem yaml_to_tree_ok (y : Yaml) (t : Tree) (h : yaml_to_tree y = .ok t) :
    (t.nodes.map Prod.fst).Nodup ∧ (∀ p ∈ t.nodes, p.1 = p.2.key) ∧
    ∃ r, (y.index "root").as_str = some r ∧ t.root_key = some r ∧
      t.current_key = some r ∧ containsKey t.nodes r = true := by
  unfold yaml_to_tree at h
  split at h
  · cases h
  next root_key h1 =>
    split at h
    · cases h
    next node_map h2 =>
      split at h
      · cases h
      next h3 =>
        split at h
        · cases h
        next nodes h4 =>
          split at h
          · cases h
          next h5 =>
            have h5t : containsKey nodes root_key = true := by
              simpa using h5
            cases h
            obtain ⟨g1, g2⟩ := insertNodes_keeps node_map [] nodes
              (by simp) (by simp) h4
            exact ⟨g1, g2, root_key, h1, rfl, rfl, h5t⟩

theorem tree_to_yaml_of_imported (t : Tree) (r : String)
    (hr : t.root_key = some r) (hlen : ¬t.nodes.length = 0) :
    tree_to_yaml t = .ok (.hash [(.str "root", .str r),
      (.str "nodes",
        .hash (t.nodes.map (fun p => (Yaml.str p.1, node_to_yaml p.2))))]) := by
  unfold tree_to_yaml
  rw [hr]
  simp only [hlen, if_false]

theorem yaml_to_tree_eq (y : Yaml) (r : String) (nm : List (Yaml × Yaml))
    (h1 : (y.index "root").as_str = some r)
    (h2 : (y.index "nodes").as_hash = some nm) :
    yaml_to_tree y =
      (if nm.length = 0 then
        .error (.Validation (.Validation "Node map has a length of 0"))
      else
        match insertNodes nm [] with
        | .error e => .error e
        | .ok nodes =>
          if !containsKey nodes r then .error (.Validation (.NodeDNE r))
          else
            .ok (((Tree.mk nodes none none).set_root_key_unchecked r).set_current_key_unchecked
              r)) := by
  unfold yaml_to_tree
  rw [h1, h2]

theorem yaml_to_tree_of_export (nodes : List (String × Node)) (r : String)
    (hnd : (nodes.map Prod.fst).Nodup) (hne : nodes ≠ []) :
    yaml_to_tree (.hash [(.str "root", .str r),
        (.str "nodes", .hash (nodes.map (fun p => (Yaml.str p.1, node_to_yaml p.2))))])
      = (if containsKey (nodes.map reNode) r then
          .ok (Tree.mk (nodes.map reNode) (some r) (some r))
        else .error (.Validation (.NodeDNE r))) := by
  have hlen : ¬(nodes.map (fun p => (Yaml.str p.1, node_to_yaml p.2))).length = 0 := by
    simpa [List.length_eq_zero] using hne
  have hins := insertNodes_map nodes [] (by simpa using hnd)
  have h1 : ((Yaml.hash [(.str "root", .str r),
      (.str "nodes", .hash (nodes.map (fun p => (Yaml.str p.1, node_to_yaml p.2))))]).index
        "root").as_str = some r := rfl
  have h2 : ((Yaml.hash [(.str "root", .str r),
      (.str "nodes", .hash (nodes.map (fun p => (Yaml.str p.1, node_to_yaml p.2))))]).index
        "nodes").as_hash
      = some (nodes.map (fun p => (Yaml.str p.1, node_to_yaml p.2))) := rfl
  rw [yaml_to_tree_eq _ _ _ h1 h2, if_neg hlen]
  simp only [hins, List.nil_append]
  cases hc : containsKey (nodes.map reNode) r <;>
    simp [hc, Tree.set_root_key_unchecked, Tree.set_current_key_unchecked]

theorem containsKey_map_reNode (m : List (String × Node)) (k : String) :
    containsKey (m.map reNode) k = containsKey m k := by
  simp only [containsKey, List.any_map]
  rfl

/-- C1: every container a successful import produces survives the round trip:
its export succeeds and re-importing the exported source yields a container
equal to it (same node keys in the same order, same per-node dialogue and link
sequence, same root and current keys). -/
theorem import_export_roundtrip (docs : List Yaml) (c : Tree)
    (h : source_to_tree docs = .ok c) :
    ∃ out, tree_to_source c = .ok out ∧ source_to_tree out = .ok c := by
  have h' : ∃ doc, docs = [doc] ∧ yaml_to_tree doc = .ok c := by
    cases docs with
    | nil => cases h
    | cons a rest =>
      cases rest with
      | nil => exact ⟨a, rfl, h⟩
      | cons b rest2 => cases h
  obtain ⟨doc, -, himp⟩ := h'
  obtain ⟨hnd, hkeys, r, -, hr, hcur, hcont⟩ := yaml_to_tree_ok doc c himp
  have hne : c.nodes ≠ [] := by
    intro h0
    rw [h0] at hcont
    simp [containsKey] at hcont
  have hlen : ¬c.nodes.length = 0 := by
    simpa [List.length_eq_zero] using hne
  have hexp := tree_to_yaml_of_imported c r hr hlen
  refine ⟨[.hash [(.str "root", .str r),
      (.str "nodes", .hash (c.nodes.map (fun p => (Yaml.str p.1, node_to_yaml p.2))))]],
    ?_, ?_⟩
  · unfold tree_to_source
    rw [hexp]
  · have hre : yaml_to_tree (Yaml.hash [(.str "root", .str r),
        (.str "nodes", .hash (c.nodes.map (fun p => (Yaml.str p.1, node_to_yaml p.2))))])
        = .ok c := by
      rw [yaml_to_tree_of_export c.nodes r hnd hne]
      rw [containsKey_map_reNode, hcont, if_pos rfl, map_reNode_id c.nodes hkeys]
      cases c with
      | mk cn cr cc =>
        simp only at hr hcur
        rw [hr, hcur]
    exact hre

/-- Witness for C1 at a concrete imported two-node container. -/
theorem import_export_roundtrip_witness :
    ∃ out, tree_to_source exTree = .ok out ∧ source_to_tree out = .ok exTree :=
  import_export_roundtrip [exDoc] exTree rfl

/-- C3: a successful import yields a container whose document root key names
an existing node and is stored in both `root_key` and `current_key`; when the
root key is missing from the parsed node map — a check performed only after
every node has been parsed and inserted — the import fails with `NodeDNE`. -/
theorem source_to_tree_root_verified (docs : List Yaml) :
    (∀ t, source_to_tree docs = .ok t →
      ∃ doc r, docs = [doc] ∧ (doc.index "root").as_str = some r ∧
        t.root_key = some r ∧ t.current_key = some r ∧
        containsKey t.nodes r = true) ∧
    (∀ y r nm nodes, (y.index "root").as_str = some r →
      (y.index "nodes").as_hash = some nm → ¬nm.length = 0 →
      insertNodes nm [] = .ok nodes → containsKey nodes r = false →
      yaml_to_tree y = .error (.Validation (.NodeDNE r))) := by
  constructor
  · intro t h
    have h' : ∃ doc, docs = [doc] ∧ yaml_to_tree doc = .ok t := by
      cases docs with
      | nil => cases h
      | cons a rest =>
        cases rest with
        | nil => exact ⟨a, rfl, h⟩
        | cons b rest2 => cases h
    obtain ⟨doc, hdocs, himp⟩ := h'
    obtain ⟨-, -, r, hra, hr, hc, hcont⟩ := yaml_to_tree_ok doc t himp
    exact ⟨doc, r, hdocs, hra, hr, hc, hcont⟩
  · intro y r nm nodes h1 h2 h3 h4 h5
    rw [yaml_to_tree_eq y r nm h1 h2, if_neg h3]
    simp [h4, h5]

/-- Witness for C3: the successful branch at the two-node document, the
failing branch at a document whose root names a missing key. -/
theorem source_to_tree_root_verified_witness :
    (∃ doc r, [exDoc] = [doc] ∧ (doc.index "root").as_str = some r ∧
      exTree.root_key = some r ∧ exTree.current_key = some r ∧
      containsKey exTree.nodes r = true) ∧
    yaml_to_tree ghostRootDoc = .error (.Validation (.NodeDNE "missing")) := by
  constructor
  · exact (source_to_tree_root_verified [exDoc]).1 exTree rfl
  · exact (source_to_tree_root_verified []).2 ghostRootDoc "missing"
      [(.str "start", .hash [(.str "dialogue", .str "Hi")])]
      [("start", Node.mk "start" "Hi" [])] rfl rfl (by simp) rfl rfl

/-- C9: link targets are not verified at import time: a valid document whose
only node links to the nonexistent key "ghost" imports successfully, the
dangling link preserved unchanged in the resulting container. -/
theorem import_keeps_dangling_link :
    source_to_tree [danglingDoc] = .ok danglingTree ∧
    containsKey danglingTree.nodes "ghost" = false ∧
    ∃ p ∈ danglingTree.nodes, Link.mk "ghost" "Go" ∈ p.2.links := by
  refine ⟨rfl, rfl, ?_⟩
  exact ⟨("start", ⟨"start", "Hi", [⟨"ghost", "Go"⟩]⟩), by decide, by decide⟩

/-- C10: the exporter does not re-check invariant I1: a tree with a non-empty
node map whose root key indexes no node (reachable only through
`set_root_key_unchecked`; an `IndexMap`'s keys are pairwise distinct, recorded
here as the `Nodup` hypothesis) exports successfully, the emitted document's
root naming a nonexistent node, and re-importing that document fails. -/
theorem export_skips_root_check (t : Tree) (k : String)
    (hnd : (t.nodes.map Prod.fst).Nodup) (hne : t.nodes ≠ [])
    (hr : t.root_key = some k) (hk : containsKey t.nodes k = false) :
    ∃ y, tree_to_source t = .ok [y] ∧ Yaml.index y "root" = .str k ∧
      yaml_to_tree y = .error (.Validation (.NodeDNE k)) := by
  have hlen : ¬t.nodes.length = 0 := by
    simpa [List.length_eq_zero] using hne
  have hexp := tree_to_yaml_of_imported t k hr hlen
  refine ⟨.hash [(.str "root", .str k),
      (.str "nodes", .hash (t.nodes.map (fun p => (Yaml.str p.1, node_to_yaml p.2))))],
    ?_, rfl, ?_⟩
  · unfold tree_to_source
    rw [hexp]
  · rw [yaml_to_tree_of_export t.nodes k hnd hne]
    rw [containsKey_map_reNode, hk]
    simp

/-- Witness for C10 at a concrete one-node tree rooted at a missing key. -/
theorem export_skips_root_check_witness :
    ∃ y, tree_to_source brokenRootTree = .ok [y] ∧
      Yaml.index y "root" = .str "ghost" ∧
      yaml_to_tree y = .error (.Validation (.NodeDNE "ghost")) :=
  export_skips_root_check brokenRootTree "ghost" (by decide) (by decide)
    rfl (by decide)

theorem linksOfHash_error (entries : List (Yaml × Yaml)) (acc : List Link)
    (h : ∃ p ∈ entries, p.1.as_str = none ∨ p.2.as_str = none) :
    ∃ e, linksOfHash entries acc = .error e := by
  induction entries generalizing acc with
  | nil => simp at h
  | cons p rest ih =>
    cases hlp : linkOfPair p with
    | error e => exact ⟨e, by simp [linksOfHash, hlp]⟩
    | ok l =>
      have hp : ¬(p.1.as_str = none ∨ p.2.as_str = none) := by
        intro hbad
        rcases hbad with hb | hb
        · simp [linkOfPair, hb] at hlp
        · cases h1 : p.1.as_str with
          | none => simp [linkOfPair, h1] at hlp
          | some s => simp [linkOfPair, h1, hb] at hlp
      rcases h with ⟨q, hq, hbad⟩
      rcases List.mem_cons.mp hq with rfl | hq2
      · exact absurd hbad hp
      · have hstep : linksOfHash (p :: rest) acc = linksOfHash rest (acc ++ [l]) := by
          simp [linksOfHash, hlp]
        rw [hstep]
        exact ih _ ⟨q, hq2, hbad⟩

theorem linksLoop_error (ys : List Yaml) (acc : List Link)
    (h : ∃ y ∈ ys, y.as_hash = none ∨
      ∃ p ∈ y.as_hash.getD [], p.1.as_str = none ∨ p.2.as_str = none) :
    ∃ e, linksLoop ys acc = .error e := by
  induction ys generalizing acc with
  | nil => simp at h
  | cons y rest ih =>
    cases hh : y.as_hash with
    | none =>
      exact ⟨.Validation (.Validation "YAML link is not a hash"),
        by simp [linksLoop, hh]⟩
    | some hs =>
      cases hof : linksOfHash hs acc with
      | error e => exact ⟨e, by simp [linksLoop, hh, hof]⟩
      | ok acc2 =>
        have hy : ¬(y.as_hash = none ∨
            ∃ p ∈ y.as_hash.getD [], p.1.as_str = none ∨ p.2.as_str = none) := by
          intro hbad
          rcases hbad with hb | hb
          · rw [hh] at hb
            cases hb
          · rw [hh] at hb
            obtain ⟨e, he⟩ := linksOfHash_error hs acc (by simpa using hb)
            rw [he] at hof
            cases hof
        rcases h with ⟨z, hz, hbad⟩
        rcases List.mem_cons.mp hz with rfl | hz2
        · exact absurd hbad hy
        · have hstep : linksLoop (y :: rest) acc = linksLoop rest acc2 := by
            simp [linksLoop, hh, hof]
          rw [hstep]
          exact ih _ ⟨z, hz2, hbad⟩

/-- C7 counterexample: a links entry that is a sequence holding one two-entry
mapping does not fail the import, contrary to the claim: the document imports
successfully, the mapping flattened into two links in entry order. -/
theorem multi_entry_link_mapping_accepted :
    source_to_tree [multiLinkDoc] = .ok multiLinkTree ∧
    ∃ p ∈ multiLinkTree.nodes,
      p.2.links = [Link.new "a" "x", Link.new "b" "y"] := by
  refine ⟨rfl, ("start", ⟨"start", "Hi", [⟨"a", "x"⟩, ⟨"b", "y"⟩]⟩), by decide, by decide⟩

/-- C7 amended: a links entry must be a non-empty sequence of mappings whose
entry keys and values are all strings — an empty sequence fails, a non-mapping
element fails, a non-string target key or label fails — but single-entry
mappings are not enforced: a mapping with several string-to-string entries is
accepted and contributes one link per entry in order. -/
theorem yaml_to_links_validation (ys : List Yaml) (s1 d1 s2 d2 : String) :
    yaml_to_links (.arr [])
      = .error (.Validation (.Validation "Links array has a length of 0")) ∧
    ((∃ y ∈ ys, y.as_hash = none) → ∃ e, yaml_to_links (.arr ys) = .error e) ∧
    ((∃ y ∈ ys, ∃ p ∈ y.as_hash.getD [], p.1.as_str = none ∨ p.2.as_str = none) →
      ∃ e, yaml_to_links (.arr ys) = .error e) ∧
    yaml_to_links (.arr [.hash [(.str s1, .str d1), (.str s2, .str d2)]])
      = .ok [Link.new s1 d1, Link.new s2 d2] := by
  have herr : ∀ (hbad : ∃ y ∈ ys, y.as_hash = none ∨
      ∃ p ∈ y.as_hash.getD [], p.1.as_str = none ∨ p.2.as_str = none),
      ∃ e, yaml_to_links (.arr ys) = .error e := by
    rintro ⟨y, hy, hbad⟩
    have hne : ¬ys.length = 0 := by
      have := List.ne_nil_of_mem hy
      simpa [List.length_eq_zero] using this
    obtain ⟨e, he⟩ := linksLoop_error ys [] ⟨y, hy, hbad⟩
    refine ⟨e, ?_⟩
    simp only [yaml_to_links, Yaml.as_vec, if_neg hne]
    exact he
  refine ⟨rfl, ?_, ?_, rfl⟩
  · rintro ⟨y, hy, hb⟩
    exact herr ⟨y, hy, Or.inl hb⟩
  · rintro ⟨y, hy, hb⟩
    exact herr ⟨y, hy, Or.inr hb⟩

/-- Witness for C7 amended: each failing branch at a concrete input, plus the
flattening branch. -/
theorem yaml_to_links_validation_witness :
    (∃ e, yaml_to_links (.arr [.str "x"]) = .error e) ∧
    (∃ e, yaml_to_links (.arr [.hash [(.int 3, .str "lbl")]]) = .error e) ∧
    yaml_to_links (.arr [.hash [(.str "a", .str "x"), (.str "b", .str "y")]])
      = .ok [Link.new "a" "x", Link.new "b" "y"] := by
  refine ⟨?_, ?_, (yaml_to_links_validation [] "a" "x" "b" "y").2.2.2⟩
  · exact (yaml_to_links_validation [.str "x"] "a" "x" "b" "y").2.1
      ⟨.str "x", by simp, rfl⟩
  · exact (yaml_to_links_validation [.hash [(.int 3, .str "lbl")]] "a" "x" "b" "y").2.2.1
      ⟨.hash [(.int 3, .str "lbl")], by simp,
        (.int 3, .str "lbl"), by simp [Yaml.as_hash], Or.inl rfl⟩

end Convo
